import Mathlib

/-!
Verification of the project-lakechain event reducer.

The repository's `src/` tree contains the CDK construct layer of the
reducer middleware (strategy dispatch, input/output types, the
conditional statement) and the graph-writing lambda of a sibling
middleware. The runtime aggregation engine (state store client,
completion strategies, composite event builder, correlation resolver)
is not part of the provided sources, so those components are modelled
from the specification and proved against that model.
-/

namespace Lakechain

/-- Status of an aggregation record: the per-reduction-key state machine
has states OPEN, CLOSED and EXPIRED. -/
inductive Status where
  | OPEN
  | CLOSED
  | EXPIRED
deriving DecidableEq, Repr

/-- Modelled from the spec: the Aggregation Record, keyed by reduction key.
Fields: status, creation timestamp, list of registered member identifiers,
an optional closure deadline (time-window strategies), and a monotonically
increasing version used for compare-and-set. -/
structure AggregationRecord where
  status : Status
  members : List String
  version : Nat
  createdAt : Nat
  deadline : Option Nat
deriving DecidableEq, Repr

/-- Modelled from the spec: `registerMember(key, memberId) -> (record, appended)`
atomically adds `memberId` to the record's member set if absent (idempotent
against duplicate delivery) and returns the updated record; members arriving
after closure are rejected, never appended to a closed record. -/
def registerMember (memberId : String) (r : AggregationRecord) :
    AggregationRecord × Bool :=
  if r.status = Status.OPEN then
    if memberId ∈ r.members then (r, false)
    else ({ r with members := r.members ++ [memberId], version := r.version + 1 }, true)
  else (r, false)

/-- Modelled from the spec: `tryClose(key, expectedVersion) -> bool`, the
conditional transition OPEN→CLOSED that succeeds only when the record is
still OPEN and carries the expected version, and fails (returns false, no
error) otherwise. A success bumps the fencing version. -/
def tryClose (expectedVersion : Nat) (r : AggregationRecord) :
    AggregationRecord × Bool :=
  if r.status = Status.OPEN ∧ r.version = expectedVersion then
    ({ r with status := Status.CLOSED, version := r.version + 1 }, true)
  else (r, false)

/-- Modelled from the spec: `tryExpire(key, expectedVersion) -> bool`, the
conditional transition OPEN→EXPIRED analogous to `tryClose`. -/
def tryExpire (expectedVersion : Nat) (r : AggregationRecord) :
    AggregationRecord × Bool :=
  if r.status = Status.OPEN ∧ r.version = expectedVersion then
    ({ r with status := Status.EXPIRED, version := r.version + 1 }, true)
  else (r, false)

/-- Modelled from the spec: one Expiry Sweeper step over a record at wall
clock `now`: a record past its deadline is expired through the same
conditional-update discipline as closure. -/
def sweeperStep (now : Nat) (r : AggregationRecord) :
    AggregationRecord × Bool :=
  match r.deadline with
  | none => (r, false)
  | some d => if d ≤ now then tryExpire r.version r else (r, false)

/-- A closure attempt in the CLOSE race: an arrival-triggered `tryClose`
or a sweeper-triggered `tryExpire`. -/
inductive CloseAttempt where
  | close
  | expire
deriving DecidableEq, Repr

/-- Runs one closure attempt with the shared expected version. -/
def runAttempt (a : CloseAttempt) (expectedVersion : Nat)
    (r : AggregationRecord) : AggregationRecord × Bool :=
  match a with
  | CloseAttempt.close => tryClose expectedVersion r
  | CloseAttempt.expire => tryExpire expectedVersion r

/-- Runs a sequence of closure attempts, all carrying the same expected
version, threading the record through and collecting each result. -/
def runAttempts (expectedVersion : Nat) (r : AggregationRecord) :
    List CloseAttempt → AggregationRecord × List Bool
  | [] => (r, [])
  | a :: rest =>
    ((runAttempts expectedVersion (runAttempt a expectedVersion r).1 rest).1,
      (runAttempt a expectedVersion r).2 ::
        (runAttempts expectedVersion (runAttempt a expectedVersion r).1 rest).2)

lemma runAttempt_of_not_open (a : CloseAttempt) (v : Nat)
    (r : AggregationRecord) (h : r.status ≠ Status.OPEN) :
    runAttempt a v r = (r, false) := by
  cases a <;> simp [runAttempt, tryClose, tryExpire, h]

lemma runAttempt_true_not_open (a : CloseAttempt) (v : Nat)
    (r : AggregationRecord) (h : (runAttempt a v r).2 = true) :
    (runAttempt a v r).1.status ≠ Status.OPEN := by
  cases a <;>
    simp only [runAttempt, tryClose, tryExpire] at h ⊢ <;>
    split at h <;> simp_all

lemma runAttempts_of_not_open (v : Nat) (r : AggregationRecord)
    (attempts : List CloseAttempt) (h : r.status ≠ Status.OPEN) :
    runAttempts v r attempts = (r, List.replicate attempts.length false) := by
  induction attempts with
  | nil => simp [runAttempts]
  | cons a rest ih =>
    simp [runAttempts, runAttempt_of_not_open a v r h, ih, List.replicate]

/-- C1. For every expected version and every sequence of tryClose/tryExpire
attempts carrying that same expected version, at most one attempt returns
true (so at most one composite event is emitted for the key), and every
attempt returns a boolean result: losers return false rather than raising
an error. -/
theorem runAttempts_at_most_one_winner (v : Nat) (r : AggregationRecord)
    (attempts : List CloseAttempt) :
    (runAttempts v r attempts).2.count true ≤ 1 ∧
      (runAttempts v r attempts).2.length = attempts.length := by
  induction attempts generalizing r with
  | nil => simp [runAttempts]
  | cons a rest ih =>
    refine ⟨?_, ?_⟩
    · by_cases h : (runAttempt a v r).2 = true
      · have hclosed := runAttempt_true_not_open a v r h
        have hrest := runAttempts_of_not_open v (runAttempt a v r).1 rest hclosed
        simp [runAttempts, h, hrest, List.count_replicate]
      · have hfalse : (runAttempt a v r).2 = false := by
          cases hb : (runAttempt a v r).2
          · rfl
          · exact absurd hb h
        have := (ih (runAttempt a v r).1).1
        simp [runAttempts, hfalse]
        omega
    · have := (ih (runAttempt a v r).1).2
      simp [runAttempts, this]

/-- An engine operation over the aggregation record: member registration,
an arrival-triggered close, a sweeper expire, or a full sweeper step. -/
inductive EngineOp where
  | register (memberId : String)
  | close (expectedVersion : Nat)
  | expire (expectedVersion : Nat)
  | sweep (now : Nat)

/-- Applies one engine operation to the record. -/
def applyOp (op : EngineOp) (r : AggregationRecord) : AggregationRecord :=
  match op with
  | EngineOp.register m => (registerMember m r).1
  | EngineOp.close v => (tryClose v r).1
  | EngineOp.expire v => (tryExpire v r).1
  | EngineOp.sweep now => (sweeperStep now r).1

/-- Applies a sequence of engine operations in order. -/
def applyOps (ops : List EngineOp) (r : AggregationRecord) : AggregationRecord :=
  ops.foldl (fun acc op => applyOp op acc) r

/-- The allowed direction of the status state machine: OPEN may advance
anywhere, CLOSED and EXPIRED are terminal. -/
def statusAdvances : Status → Status → Bool
  | Status.OPEN, _ => true
  | Status.CLOSED, Status.CLOSED => true
  | Status.EXPIRED, Status.EXPIRED => true
  | _, _ => false

lemma statusAdvances_refl (s : Status) : statusAdvances s s = true := by
  cases s <;> rfl

lemma statusAdvances_trans (a b c : Status)
    (h₁ : statusAdvances a b = true) (h₂ : statusAdvances b c = true) :
    statusAdvances a c = true := by
  cases a <;> cases b <;> cases c <;> simp_all [statusAdvances]

lemma applyOp_monotone (op : EngineOp) (r : AggregationRecord) :
    statusAdvances r.status (applyOp op r).status = true ∧
      r.members.length ≤ (applyOp op r).members.length ∧
      r.version ≤ (applyOp op r).version := by
  cases op with
  | register m =>
    simp only [applyOp, registerMember]
    split
    · split
      · simp [statusAdvances_refl]
      · next h _ => simp [h, statusAdvances]
    · simp [statusAdvances_refl]
  | close v =>
    simp only [applyOp, tryClose]
    split
    · next h => simp [h.1, statusAdvances]
    · simp [statusAdvances_refl]
  | expire v =>
    simp only [applyOp, tryExpire]
    split
    · next h => simp [h.1, statusAdvances]
    · simp [statusAdvances_refl]
  | sweep now =>
    simp only [applyOp, sweeperStep]
    split
    · simp [statusAdvances_refl]
    · split
      · simp only [tryExpire]
        split
        · next h => simp [h.1, statusAdvances]
        · simp [statusAdvances_refl]
      · simp [statusAdvances_refl]

/-- C2. Over every sequence of engine operations (registerMember, tryClose,
tryExpire, sweeper steps), the status only advances along OPEN→CLOSED or
OPEN→EXPIRED — no sequence moves a record out of CLOSED or out of
EXPIRED — and the member count and version never decrease. -/
theorem applyOps_monotone (ops : List EngineOp) (r : AggregationRecord) :
    statusAdvances r.status (applyOps ops r).status = true ∧
      r.members.length ≤ (applyOps ops r).members.length ∧
      r.version ≤ (applyOps ops r).version := by
  induction ops generalizing r with
  | nil => simp [applyOps, statusAdvances_refl]
  | cons op rest ih =>
    have h₁ := applyOp_monotone op r
    have h₂ := ih (applyOp op r)
    have hops : applyOps (op :: rest) r = applyOps rest (applyOp op r) := rfl
    rw [hops]
    exact ⟨statusAdvances_trans _ _ _ h₁.1 h₂.1,
      le_trans h₁.2.1 h₂.2.1, le_trans h₁.2.2 h₂.2.2⟩

/-- C3. registerMember is idempotent: a duplicate call with the same member
identifier returns the record produced by the first call unchanged, with
the appended flag false — a no-op on the member set that still returns the
current state. -/
theorem registerMember_idempotent (memberId : String) (r : AggregationRecord) :
    registerMember memberId (registerMember memberId r).1 =
      ((registerMember memberId r).1, false) := by
  simp only [registerMember]
  split
  · next hopen =>
    split
    · next hmem => simp [hopen, hmem]
    · next hmem => simp [hopen]
  · next hopen => simp [hopen]

/-- Result of a completion strategy evaluation. -/
inductive EvalResult where
  | COMPLETE
  | PENDING
deriving DecidableEq, Repr

/-- Modelled from the spec: the Completion Strategy as a tagged variant —
count-threshold (target fixed at creation), time-window (evaluate never
signals COMPLETE; closure happens via the sweeper at window elapse), and
conditional (user predicate over the record, which may fail). -/
inductive CompletionStrategy where
  | countThreshold (target : Nat)
  | timeWindow (window : Nat)
  | conditional (predicate : AggregationRecord → Except String Bool)

/-- Modelled from the spec: `evaluate(record) -> {COMPLETE, PENDING}`.
A predicate failure is treated as PENDING, never as COMPLETE. -/
def evaluate (s : CompletionStrategy) (r : AggregationRecord) : EvalResult :=
  match s with
  | CompletionStrategy.countThreshold target =>
    if target ≤ r.members.length then EvalResult.COMPLETE else EvalResult.PENDING
  | CompletionStrategy.timeWindow _ => EvalResult.PENDING
  | CompletionStrategy.conditional p =>
    match p r with
    | Except.ok true => EvalResult.COMPLETE
    | Except.ok false => EvalResult.PENDING
    | Except.error _ => EvalResult.PENDING

/-- Modelled from the spec: the Aggregation Engine's member-arrival path —
register the member, evaluate the strategy on the updated record, and on
COMPLETE attempt `tryClose` with the version read at registration time;
the boolean says whether this invocation won emission duties. -/
def processArrival (s : CompletionStrategy) (memberId : String)
    (r : AggregationRecord) : AggregationRecord × Bool :=
  match evaluate s (registerMember memberId r).1 with
  | EvalResult.COMPLETE =>
    tryClose (registerMember memberId r).1.version (registerMember memberId r).1
  | EvalResult.PENDING => ((registerMember memberId r).1, false)

lemma registerMember_status (memberId : String) (r : AggregationRecord) :
    (registerMember memberId r).1.status = r.status := by
  simp only [registerMember]
  split
  · split <;> simp_all
  · rfl

lemma registerMember_length_of_open (memberId : String) (r : AggregationRecord)
    (hopen : r.status = Status.OPEN) :
    (registerMember memberId r).1.members.length =
      (if memberId ∈ r.members then r.members.length else r.members.length + 1) := by
  by_cases h : memberId ∈ r.members <;> simp [registerMember, hopen, h]

/-- C5. Count-threshold: `evaluate` returns COMPLETE exactly when the
distinct member count has reached the fixed target; on an OPEN record the
arrival path closes the aggregation exactly when the updated member count
reaches the target — in particular a fresh member moving the count from
target−1 to target closes it, and any arrival leaving the count below the
target leaves it OPEN. -/
theorem countThreshold_closes_exactly_at_target (target : Nat)
    (r : AggregationRecord) (memberId : String) :
    (evaluate (CompletionStrategy.countThreshold target) r = EvalResult.COMPLETE ↔
        target ≤ r.members.length) ∧
      (r.status = Status.OPEN →
        ((processArrival (CompletionStrategy.countThreshold target) memberId r).1.status =
            Status.CLOSED ↔
          target ≤ (registerMember memberId r).1.members.length)) ∧
      (r.status = Status.OPEN → memberId ∉ r.members → r.members.length + 1 = target →
        (processArrival (CompletionStrategy.countThreshold target) memberId r).1.status =
            Status.CLOSED ∧
          (processArrival (CompletionStrategy.countThreshold target) memberId r).2 = true) ∧
      (r.status = Status.OPEN → (registerMember memberId r).1.members.length < target →
        (processArrival (CompletionStrategy.countThreshold target) memberId r).1.status =
            Status.OPEN ∧
          (processArrival (CompletionStrategy.countThreshold target) memberId r).2 = false) := by
  have heval : ∀ rr : AggregationRecord,
      evaluate (CompletionStrategy.countThreshold target) rr = EvalResult.COMPLETE ↔
        target ≤ rr.members.length := by
    intro rr
    simp only [evaluate]
    split <;> simp_all
  refine ⟨heval r, ?_, ?_, ?_⟩
  · intro hopen
    have hst := registerMember_status memberId r
    by_cases hc : target ≤ (registerMember memberId r).1.members.length
    · have : evaluate (CompletionStrategy.countThreshold target)
          (registerMember memberId r).1 = EvalResult.COMPLETE := (heval _).2 hc
      simp [processArrival, this, tryClose, hst, hopen, hc]
    · have : evaluate (CompletionStrategy.countThreshold target)
          (registerMember memberId r).1 = EvalResult.PENDING := by
        simp only [evaluate]
        split <;> simp_all
      simp [processArrival, this, hst, hopen, hc]
  · intro hopen hmem htarget
    have hst := registerMember_status memberId r
    have hlen := registerMember_length_of_open memberId r hopen
    have hc : target ≤ (registerMember memberId r).1.members.length := by
      simp [hlen, hmem, htarget]
    have : evaluate (CompletionStrategy.countThreshold target)
        (registerMember memberId r).1 = EvalResult.COMPLETE := by
      simp only [evaluate]
      split <;> simp_all
    simp [processArrival, this, tryClose, hst, hopen]
  · intro hopen hlt
    have hst := registerMember_status memberId r
    have : evaluate (CompletionStrategy.countThreshold target)
        (registerMember memberId r).1 = EvalResult.PENDING := by
      simp only [evaluate]
      split
      · next h => exact absurd h (by omega)
      · rfl
    simp [processArrival, this, hst, hopen]

/-- C6. Conditional strategy: a predicate that fails makes `evaluate`
return PENDING and the arrival path leaves the record OPEN; from any OPEN
record, an arrival for which the predicate returns true on the updated
record makes the engine close the aggregation; composing the two, a
failing arrival followed by a succeeding one ends CLOSED. -/
theorem conditional_pending_on_error_then_closes
    (p : AggregationRecord → Except String Bool) (r : AggregationRecord)
    (m₁ m₂ : String) (msg : String) :
    (r.status = Status.OPEN → p (registerMember m₁ r).1 = Except.error msg →
      evaluate (CompletionStrategy.conditional p) (registerMember m₁ r).1 =
          EvalResult.PENDING ∧
        (processArrival (CompletionStrategy.conditional p) m₁ r).1.status = Status.OPEN) ∧
      (r.status = Status.OPEN → p (registerMember m₂ r).1 = Except.ok true →
        (processArrival (CompletionStrategy.conditional p) m₂ r).1.status = Status.CLOSED ∧
          (processArrival (CompletionStrategy.conditional p) m₂ r).2 = true) ∧
      (r.status = Status.OPEN → p (registerMember m₁ r).1 = Except.error msg →
        p (registerMember m₂
            (processArrival (CompletionStrategy.conditional p) m₁ r).1).1 =
          Except.ok true →
        (processArrival (CompletionStrategy.conditional p) m₂
            (processArrival (CompletionStrategy.conditional p) m₁ r).1).1.status =
          Status.CLOSED) := by
  have hpend : ∀ (rr : AggregationRecord),
      p (registerMember m₁ rr).1 = Except.error msg →
      evaluate (CompletionStrategy.conditional p) (registerMember m₁ rr).1 =
          EvalResult.PENDING ∧
        (processArrival (CompletionStrategy.conditional p) m₁ rr).1 =
          (registerMember m₁ rr).1 := by
    intro rr herr
    have : evaluate (CompletionStrategy.conditional p) (registerMember m₁ rr).1 =
        EvalResult.PENDING := by
      simp [evaluate, herr]
    exact ⟨this, by simp [processArrival, this]⟩
  have hclose : ∀ (m : String) (rr : AggregationRecord), rr.status = Status.OPEN →
      p (registerMember m rr).1 = Except.ok true →
      (processArrival (CompletionStrategy.conditional p) m rr).1.status = Status.CLOSED ∧
        (processArrival (CompletionStrategy.conditional p) m rr).2 = true := by
    intro m rr hopen hok
    have heval : evaluate (CompletionStrategy.conditional p) (registerMember m rr).1 =
        EvalResult.COMPLETE := by
      simp [evaluate, hok]
    have hst := registerMember_status m rr
    constructor <;>
      simp [processArrival, heval, tryClose, hst, hopen]
  refine ⟨?_, ?_, ?_⟩
  · intro hopen herr
    have h := hpend r herr
    exact ⟨h.1, by rw [h.2, registerMember_status m₁ r]; exact hopen⟩
  · intro hopen hok
    exact hclose m₂ r hopen hok
  · intro hopen herr hok
    have h := hpend r herr
    have hopen₁ : (processArrival (CompletionStrategy.conditional p) m₁ r).1.status =
        Status.OPEN := by
      rw [h.2, registerMember_status m₁ r]; exact hopen
    exact (hclose m₂ _ hopen₁ (by exact hok)).1

/-- Lexicographic comparison of identifier characters, used to give member
identifiers a canonical iteration order. -/
def charListLe : List Char → List Char → Bool
  | [], _ => true
  | _ :: _, [] => false
  | a :: as, b :: bs =>
    if a.toNat = b.toNat then charListLe as bs
    else decide (a.toNat < b.toNat)

/-- Lexicographic order on member identifiers. -/
def memberLe (a b : String) : Bool :=
  charListLe a.data b.data

/-- The sorting relation on member identifiers. -/
def memberOrder (a b : String) : Prop := memberLe a b = true

instance : DecidableRel memberOrder := fun a b => decEq (memberLe a b) true

lemma charListLe_total (x y : List Char) :
    charListLe x y = true ∨ charListLe y x = true := by
  induction x generalizing y with
  | nil => left; rfl
  | cons a as ih =>
    cases y with
    | nil => right; rfl
    | cons b bs =>
      by_cases hab : a.toNat = b.toNat
      · rcases ih bs with h | h
        · left; simp [charListLe, hab, h]
        · right; simp [charListLe, hab.symm, h]
      · rcases Nat.lt_or_ge a.toNat b.toNat with h | h
        · left; simp [charListLe, hab, h]
        · right
          have hba : b.toNat ≠ a.toNat := fun hc => hab hc.symm
          simp [charListLe, hba]
          omega

lemma charListLe_trans (x y z : List Char) (hxy : charListLe x y = true)
    (hyz : charListLe y z = true) : charListLe x z = true := by
  induction x generalizing y z with
  | nil => rfl
  | cons a as ih =>
    cases y with
    | nil => simp [charListLe] at hxy
    | cons b bs =>
      cases z with
      | nil => simp [charListLe] at hyz
      | cons c cs =>
        simp only [charListLe] at hxy hyz ⊢
        by_cases hab : a.toNat = b.toNat
        · rw [if_pos hab] at hxy
          by_cases hbc : b.toNat = c.toNat
          · rw [if_pos hbc] at hyz
            rw [if_pos (hab.trans hbc)]
            exact ih bs cs hxy hyz
          · rw [if_neg hbc] at hyz
            have hlt : b.toNat < c.toNat := of_decide_eq_true hyz
            rw [if_neg (by omega), decide_eq_true_eq]
            omega
        · rw [if_neg hab] at hxy
          have hlt : a.toNat < b.toNat := of_decide_eq_true hxy
          by_cases hbc : b.toNat = c.toNat
          · rw [if_neg (by omega), decide_eq_true_eq]
            omega
          · rw [if_neg hbc] at hyz
            have hlt₂ : b.toNat < c.toNat := of_decide_eq_true hyz
            rw [if_neg (by omega), decide_eq_true_eq]
            omega

lemma charListLe_antisymm (x y : List Char) (hxy : charListLe x y = true)
    (hyx : charListLe y x = true) : x = y := by
  induction x generalizing y with
  | nil =>
    cases y with
    | nil => rfl
    | cons b bs => simp [charListLe] at hyx
  | cons a as ih =>
    cases y with
    | nil => simp [charListLe] at hxy
    | cons b bs =>
      simp only [charListLe] at hxy hyx
      by_cases hab : a.toNat = b.toNat
      · rw [if_pos hab] at hxy
        rw [if_pos hab.symm] at hyx
        have hhead : a = b := Char.ext (UInt32.ext hab)
        rw [hhead, ih bs hxy hyx]
      · rw [if_neg hab] at hxy
        rw [if_neg (fun h => hab h.symm)] at hyx
        have h₁ := of_decide_eq_true hxy
        have h₂ := of_decide_eq_true hyx
        omega

instance : IsTotal String memberOrder :=
  ⟨fun a b => charListLe_total a.data b.data⟩

instance : IsTrans String memberOrder :=
  ⟨fun a b c => charListLe_trans a.data b.data c.data⟩

instance : IsAntisymm String memberOrder :=
  ⟨fun a b h₁ h₂ => by
    have hdata := charListLe_antisymm a.data b.data h₁ h₂
    cases a; cases b
    exact congrArg String.mk hdata⟩

/-- Modelled from the spec: member identifiers are the canonical iteration
key of the Composite Event Builder — the distinct identifiers of the final
member set, sorted before traversal. -/
def canonicalMembers (members : List String) : List String :=
  List.insertionSort memberOrder members.dedup

/-- Modelled from the spec: the metadata the builder fetches for a member —
a document type, free-form attributes, and relationships to other members
(target identifier and edge type). -/
structure MemberMetadata where
  typ : String
  attrs : List (String × String)
  relationships : List (String × String)
deriving DecidableEq, Repr

/-- A node of the composite event graph: a member tagged with a type and
free-form attributes. -/
structure GraphNode where
  id : String
  typ : String
  attrs : List (String × String)
deriving DecidableEq, Repr

/-- An edge of the composite event graph, referencing node identifiers. -/
structure GraphEdge where
  source : String
  target : String
  typ : String
deriving DecidableEq, Repr

/-- The Composite Event: a directed graph given by an explicit node/edge
container keyed by stable identifiers. -/
structure CompositeEvent where
  nodes : List GraphNode
  edges : List GraphEdge
deriving DecidableEq, Repr

/-- Modelled from the spec: the Composite Event Builder — given the final
member set, traverse the sorted identifiers, emit one node per member and
one edge per relationship between members (edges reference node
identifiers, and only members present in the set). -/
def buildCompositeEvent (meta : String → MemberMetadata)
    (members : List String) : CompositeEvent :=
  { nodes := (canonicalMembers members).map (fun m =>
      { id := m, typ := (meta m).typ, attrs := (meta m).attrs }),
    edges := (canonicalMembers members).flatMap (fun m =>
      ((meta m).relationships.filter
          (fun rel => decide (rel.1 ∈ canonicalMembers members))).map
        (fun rel => { source := m, target := rel.1, typ := rel.2 })) }

lemma canonicalMembers_of_perm (l₁ l₂ : List String) (h : List.Perm l₁ l₂) :
    canonicalMembers l₁ = canonicalMembers l₂ :=
  List.eq_of_perm_of_sorted
    ((List.perm_insertionSort _ _).trans (h.dedup.trans (List.perm_insertionSort _ _).symm))
    (List.sorted_insertionSort _ _) (List.sorted_insertionSort _ _)

/-- C4. The Composite Event Builder is deterministic in the final member
set: for any two arrival orders of the same members (lists that are
permutations of each other), building the composite event produces
structurally identical graphs — the same node list and the same edge list —
because member identifiers are sorted before traversal. -/
theorem buildCompositeEvent_deterministic (meta : String → MemberMetadata)
    (l₁ l₂ : List String) (h : List.Perm l₁ l₂) :
    buildCompositeEvent meta l₁ = buildCompositeEvent meta l₂ := by
  simp [buildCompositeEvent, canonicalMembers_of_perm l₁ l₂ h]

/-- Sample member metadata used to exercise the builder on concrete
inputs: member a is related to member b, and to an identifier z outside
the member set. -/
def sampleMetadata : String → MemberMetadata :=
  fun m =>
    if m = "a" then
      { typ := "document", attrs := [("index", "0")],
        relationships := [("b", "derived-from"), ("z", "part-of")] }
    else { typ := "document", attrs := [], relationships := [] }

/-- Witness for C4 at a concrete input: the arrival orders b,a and a,b of
the same two members build the identical composite event. -/
theorem buildCompositeEvent_deterministic_witness :
    List.Perm ["b", "a"] ["a", "b"] ∧
      buildCompositeEvent sampleMetadata ["b", "a"] =
        buildCompositeEvent sampleMetadata ["a", "b"] :=
  ⟨by decide, buildCompositeEvent_deterministic sampleMetadata _ _ (by decide)⟩

/-- C9. Edge closure of the composite event graph: every edge produced by
the builder references a source node identifier and a target node
identifier that are both present in the graph's node set. -/
theorem buildCompositeEvent_edge_closure (meta : String → MemberMetadata)
    (members : List String) (e : GraphEdge)
    (he : e ∈ (buildCompositeEvent meta members).edges) :
    e.source ∈ (buildCompositeEvent meta members).nodes.map GraphNode.id ∧
      e.target ∈ (buildCompositeEvent meta members).nodes.map GraphNode.id := by
  have hids : (buildCompositeEvent meta members).nodes.map GraphNode.id =
      canonicalMembers members := by
    simp only [buildCompositeEvent, List.map_map]
    exact List.map_id (canonicalMembers members)
  rw [hids]
  simp only [buildCompositeEvent, List.mem_flatMap, List.mem_map,
    List.mem_filter, decide_eq_true_eq] at he
  obtain ⟨m, hm, rel, ⟨hrel, hrelin⟩, heq⟩ := he
  subst heq
  exact ⟨hm, hrelin⟩

/-- Witness for C9 at a concrete input: the edge from a to b built from
the member set a,b has both endpoints among the node identifiers. -/
theorem buildCompositeEvent_edge_closure_witness :
    GraphEdge.mk "a" "b" "derived-from" ∈
        (buildCompositeEvent sampleMetadata ["a", "b"]).edges ∧
      (GraphEdge.mk "a" "b" "derived-from").source ∈
          (buildCompositeEvent sampleMetadata ["a", "b"]).nodes.map GraphNode.id ∧
        (GraphEdge.mk "a" "b" "derived-from").target ∈
          (buildCompositeEvent sampleMetadata ["a", "b"]).nodes.map GraphNode.id :=
  ⟨by decide,
    buildCompositeEvent_edge_closure sampleMetadata ["a", "b"] _ (by decide)⟩

/-- A sample OPEN aggregation record one member short of a target of two. -/
def sampleRecord : AggregationRecord :=
  { status := Status.OPEN, members := ["m1"], version := 3,
    createdAt := 0, deadline := none }

/-- Witness for C5 at a concrete input: with target two and one registered
member, the arrival of the fresh member m2 closes the aggregation and wins
emission duties. -/
theorem countThreshold_closes_exactly_at_target_witness :
    (processArrival (CompletionStrategy.countThreshold 2) "m2" sampleRecord).1.status =
        Status.CLOSED ∧
      (processArrival (CompletionStrategy.countThreshold 2) "m2" sampleRecord).2 = true :=
  (countThreshold_closes_exactly_at_target 2 sampleRecord "m2").2.2.1
    rfl (by decide) rfl

/-- A fresh OPEN aggregation record with no members. -/
def sampleEmptyRecord : AggregationRecord :=
  { status := Status.OPEN, members := [], version := 0,
    createdAt := 0, deadline := none }

/-- A sample user predicate that fails while at most one member is present
and succeeds afterwards. -/
def samplePredicate : AggregationRecord → Except String Bool :=
  fun r =>
    if r.members.length ≤ 1 then Except.error "transient" else Except.ok true

/-- Witness for C6 at a concrete input: the first arrival hits a failing
predicate and leaves the record OPEN; the second arrival makes the
predicate succeed and the engine closes the aggregation. -/
theorem conditional_pending_on_error_then_closes_witness :
    (processArrival (CompletionStrategy.conditional samplePredicate) "m1"
        sampleEmptyRecord).1.status = Status.OPEN ∧
      (processArrival (CompletionStrategy.conditional samplePredicate) "m2"
        (processArrival (CompletionStrategy.conditional samplePredicate) "m1"
          sampleEmptyRecord).1).1.status = Status.CLOSED :=
  ⟨((conditional_pending_on_error_then_closes samplePredicate sampleEmptyRecord
      "m1" "m2" "transient").1 rfl rfl).2,
    (conditional_pending_on_error_then_closes samplePredicate sampleEmptyRecord
      "m1" "m2" "transient").2.2 rfl rfl rfl⟩

/-- Modelled from the spec: the metadata of an incoming pipeline event the
reducer inspects — the optional chain identifier shared by all events
spawned from a common ancestor, and the event type field. -/
structure CloudEvent where
  chainId : Option String
  type : String
deriving DecidableEq, Repr

/-- Modelled from the spec: the reducer's error kinds. Only the
correlation error is a non-retryable rejection. -/
inductive ReducerError where
  | missingCorrelation
  | transientStore
  | predicateEvaluation (message : String)
  | emission
deriving DecidableEq, Repr

/-- Whether an error kind is retried by the surrounding transport. -/
def isRetryable : ReducerError → Bool
  | ReducerError.missingCorrelation => false
  | ReducerError.transientStore => true
  | ReducerError.predicateEvaluation _ => true
  | ReducerError.emission => true

/-- Modelled from the spec: the Correlation Resolver, a pure function of
event metadata: `resolve(event) -> ReductionKey`, failing with the missing
correlation error when the event carries no chain identifier. -/
def resolve (event : CloudEvent) : Except ReducerError String :=
  match event.chainId with
  | some k => Except.ok k
  | none => Except.error ReducerError.missingCorrelation

/-- C7. The Correlation Resolver is a function of the event's metadata
that returns the reduction key exactly when the event carries a chain
identifier, and fails with the missing correlation error exactly when it
carries none; that failure is a non-retryable rejection. -/
theorem resolve_correlation_contract (event : CloudEvent) :
    (∀ k, event.chainId = some k → resolve event = Except.ok k) ∧
      (event.chainId = none →
        resolve event = Except.error ReducerError.missingCorrelation) ∧
      (∀ err, resolve event = Except.error err →
        err = ReducerError.missingCorrelation ∧
          isRetryable err = false ∧ event.chainId = none) := by
  cases h : event.chainId with
  | none =>
    refine ⟨fun k hk => by simp [h] at hk, fun _ => by simp [resolve, h], ?_⟩
    intro err herr
    simp only [resolve, h] at herr
    cases herr
    exact ⟨rfl, rfl, rfl⟩
  | some k₀ =>
    refine ⟨fun k hk => ?_, fun hn => by simp [h] at hn, ?_⟩
    · cases hk
      simp [resolve, h]
    · intro err herr
      simp [resolve, h] at herr

/-- Witness for C7 at concrete inputs: an event with a chain identifier
resolves to that key; one without fails with the non-retryable missing
correlation error. -/
theorem resolve_correlation_contract_witness :
    resolve { chainId := some "chain-1", type := "document-created" } =
        Except.ok "chain-1" ∧
      resolve { chainId := none, type := "document-created" } =
        Except.error ReducerError.missingCorrelation :=
  ⟨(resolve_correlation_contract _).1 "chain-1" rfl,
    (resolve_correlation_contract _).2.1 rfl⟩

/-- The three strategy constructs the Reducer middleware can instantiate,
from src/packages/middlewares/flow-control/reducer/src/index.ts. -/
inductive StrategyConstruct where
  | timeWindowStrategy
  | staticCounterStrategy
  | conditionalStrategy
deriving DecidableEq, Repr

/-- The Reducer constructor's strategy dispatch on the strategy's name,
from src/packages/middlewares/flow-control/reducer/src/index.ts lines
128-136: three recognised names, anything else throws. -/
def strategyDispatch (strategyName : String) : Except String StrategyConstruct :=
  if strategyName = "TIME_WINDOW" then
    Except.ok StrategyConstruct.timeWindowStrategy
  else if strategyName = "STATIC_COUNTER" then
    Except.ok StrategyConstruct.staticCounterStrategy
  else if strategyName = "CONDITIONAL" then
    Except.ok StrategyConstruct.conditionalStrategy
  else
    Except.error ("Unsupported reducer strategy: " ++ strategyName)

/-- C8. Strategy selection is a closed choice among exactly the names
TIME_WINDOW, STATIC_COUNTER and CONDITIONAL, each mapped to its own
construct; a strategy with any other name makes the constructor throw the
unsupported reducer strategy error instead of building a reducer. -/
theorem strategyDispatch_closed (strategyName : String) :
    strategyDispatch "TIME_WINDOW" = Except.ok StrategyConstruct.timeWindowStrategy ∧
      strategyDispatch "STATIC_COUNTER" =
        Except.ok StrategyConstruct.staticCounterStrategy ∧
      strategyDispatch "CONDITIONAL" = Except.ok StrategyConstruct.conditionalStrategy ∧
      ((∃ c, strategyDispatch strategyName = Except.ok c) ↔
        (strategyName = "TIME_WINDOW" ∨ strategyName = "STATIC_COUNTER" ∨
          strategyName = "CONDITIONAL")) ∧
      (strategyName ≠ "TIME_WINDOW" → strategyName ≠ "STATIC_COUNTER" →
        strategyName ≠ "CONDITIONAL" →
        strategyDispatch strategyName =
          Except.error ("Unsupported reducer strategy: " ++ strategyName)) := by
  refine ⟨rfl, rfl, rfl, ?_, ?_⟩
  · by_cases h₁ : strategyName = "TIME_WINDOW"
    · simp [strategyDispatch, h₁]
    · by_cases h₂ : strategyName = "STATIC_COUNTER"
      · simp [strategyDispatch, h₁, h₂]
      · by_cases h₃ : strategyName = "CONDITIONAL"
        · simp [strategyDispatch, h₁, h₂, h₃]
        · simp [strategyDispatch, h₁, h₂, h₃]
  · intro h₁ h₂ h₃
    simp [strategyDispatch, h₁, h₂, h₃]

/-- Witness for C8 at a concrete input: the unrecognised name FOO is
rejected with the unsupported reducer strategy error. -/
theorem strategyDispatch_closed_witness :
    strategyDispatch "FOO" = Except.error "Unsupported reducer strategy: FOO" :=
  (strategyDispatch_closed "FOO").2.2.2.2 (by decide) (by decide) (by decide)

/-- The when-equals condition of the conditions DSL over an event field. -/
def whenFieldEquals (field : CloudEvent → String) (value : String) :
    CloudEvent → Bool :=
  fun e => decide (field e = value)

/-- Conjunction of two middleware conditions. -/
def andConditional (c₁ c₂ : CloudEvent → Bool) : CloudEvent → Bool :=
  fun e => c₁ e && c₂ e

/-- The Reducer middleware's conditional statement, from
src/packages/middlewares/flow-control/reducer/src/index.ts lines 194-199:
the inherited base condition conjoined with when type equals
document-created. -/
def reducerConditional (base : CloudEvent → Bool) : CloudEvent → Bool :=
  andConditional base (whenFieldEquals CloudEvent.type "document-created")

/-- The Reducer middleware's supported input types, from
src/packages/middlewares/flow-control/reducer/src/index.ts lines 161-165. -/
def reducerSupportedInputTypes : List String := ["*/*"]

/-- C10. The Reducer middleware's conditional accepts an event only when
its type field equals document-created: whatever the inherited base
condition says, any event of another type is rejected — even though the
supported input types are the wildcard. -/
theorem reducerConditional_only_document_created (base : CloudEvent → Bool)
    (e : CloudEvent) :
    reducerSupportedInputTypes = ["*/*"] ∧
      (e.type ≠ "document-created" → reducerConditional base e = false) := by
  refine ⟨rfl, fun h => ?_⟩
  simp [reducerConditional, andConditional, whenFieldEquals, h]

/-- Witness for C10 at a concrete input: an always-true base condition
still rejects an event whose type is document-deleted. -/
theorem reducerConditional_only_document_created_witness :
    reducerConditional (fun _ => true)
      { chainId := none, type := "document-deleted" } = false :=
  (reducerConditional_only_document_created (fun _ => true)
    { chainId := none, type := "document-deleted" }).2 (by decide)

end Lakechain
